import Mathlib

/-!
Shallow embedding of the doctor-availability resolution logic of the clinic
backend: the route handlers `GET /api/clinic-day-schedule`,
`GET /api/doctor-work-schedule/:doctor_id` and `POST /api/special-schedules`
of `src/index.js`, plus the earlier map-merge revision of
`GET /api/clinic-day-schedule` found in `src/unnamed/part_003`.

Dates are civil calendar dates `⟨year, month, day⟩`.  Times of day are kept
abstract as natural numbers: the handlers move `start_time` / `end_time`
around but never inspect them.
-/

/-- A civil calendar date (proleptic Gregorian), month and day 1-based. -/
structure Ymd where
  year : Nat
  month : Nat
  day : Nat
deriving DecidableEq, Repr

/-- Gregorian month lengths, as used by JS `Date` arithmetic. -/
def daysInMonth (y m : Nat) : Nat :=
  if m = 2 then (if (y % 4 = 0 ∧ y % 100 ≠ 0) ∨ y % 400 = 0 then 29 else 28)
  else if m = 4 ∨ m = 6 ∨ m = 9 ∨ m = 11 then 30
  else 31

/-- A date is valid when its fields denote a real Gregorian date (year ≥ 1). -/
def Ymd.Valid (d : Ymd) : Prop :=
  1 ≤ d.year ∧ 1 ≤ d.month ∧ d.month ≤ 12 ∧ 1 ≤ d.day ∧
    d.day ≤ daysInMonth d.year d.month

instance (d : Ymd) : Decidable d.Valid := by
  unfold Ymd.Valid; infer_instance

/-- Sakamoto weekday table. -/
def monthTable : Nat → Nat
  | 1 => 0 | 2 => 3 | 3 => 2 | 4 => 5 | 5 => 0 | 6 => 3
  | 7 => 5 | 8 => 1 | 9 => 4 | 10 => 6 | 11 => 2 | _ => 4

/-- Weekday of a civil date, 0 = Sunday … 6 = Saturday (Sakamoto's method).
Models JS `Date#getDay` / date-fns `getDay` applied to the handlers' parsed
dates. -/
def getDay (dt : Ymd) : Nat :=
  let y := if dt.month < 3 then dt.year - 1 else dt.year
  (y + y / 4 - y / 100 + y / 400 + monthTable dt.month + dt.day) % 7

/-- date-fns `getWeekOfMonth` with its default `weekStartsOn = 0` (Sunday),
exactly as the handlers call it: `startWeekDay` is the weekday of the first
of the month, `lastDayOfFirstWeek` the day-of-month ending the first
(Sunday-started) calendar week, and the result is
`Math.ceil(remaining / 7) + 1`.  For an integer `a`, JS `Math.ceil(a / 7)`
equals `⌊(a + 6) / 7⌋`, which is `(a + 6) / 7` on `Int`. -/
def getWeekOfMonth (dt : Ymd) : Nat :=
  let startWeekDay : Int := getDay ⟨dt.year, dt.month, 1⟩
  let lastDayOfFirstWeek : Int :=
    if 0 - startWeekDay ≤ 0 then 0 - startWeekDay + 7 else 0 - startWeekDay
  let remaining : Int := (dt.day : Int) - lastDayOfFirstWeek
  ((remaining + 6) / 7 + 1).toNat

/-- Successor date, rolling over month and year ends (JS `addDays(d, 1)`). -/
def nextDay (d : Ymd) : Ymd :=
  if d.day < daysInMonth d.year d.month then ⟨d.year, d.month, d.day + 1⟩
  else if d.month < 12 then ⟨d.year, d.month + 1, 1⟩
  else ⟨d.year + 1, 1, 1⟩

/-- Day count of a date in a linear calendar (March-based Gregorian day
numbering); consecutive valid dates get consecutive numbers. -/
def rataDie (dt : Ymd) : Nat :=
  let y := if dt.month ≤ 2 then dt.year - 1 else dt.year
  let mp := (dt.month + 9) % 12
  365 * y + y / 4 - y / 100 + y / 400 + (153 * mp + 2) / 5 + dt.day

/-- Take `n` consecutive dates starting at `d`. -/
def eachDayAux : Nat → Ymd → List Ymd
  | 0, _ => []
  | n + 1, d => d :: eachDayAux n (nextDay d)

/-- date-fns `eachDayOfInterval {start, end}`: every calendar date from
`start` to `e` inclusive (empty when `e` precedes `start`). -/
def eachDayOfInterval (start e : Ymd) : List Ymd :=
  eachDayAux (rataDie e + 1 - rataDie start) start

theorem getDay_lt (dt : Ymd) : getDay dt < 7 := by
  unfold getDay
  exact Nat.mod_lt _ (by norm_num)

theorem getDay_linear (y m d : Nat) (hd : 1 ≤ d) :
    getDay ⟨y, m, d⟩ = (getDay ⟨y, m, 1⟩ + (d - 1)) % 7 := by
  unfold getDay
  simp only
  generalize (if m < 3 then y - 1 else y) = y'
  generalize y' + y' / 4 - y' / 100 + y' / 400 + monthTable m = C
  omega

theorem getWeekOfMonth_formula (y m d : Nat) (hd : 1 ≤ d) :
    getWeekOfMonth ⟨y, m, d⟩ = (d - 1 + getDay ⟨y, m, 1⟩) / 7 + 1 := by
  unfold getWeekOfMonth
  have hs : getDay ⟨y, m, 1⟩ < 7 := getDay_lt _
  simp only
  generalize hgen : getDay (Ymd.mk y m 1) = s at hs
  rw [if_pos (by omega)]
  omega

theorem one_le_daysInMonth (y m : Nat) : 1 ≤ daysInMonth y m := by
  unfold daysInMonth
  split_ifs <;> omega

theorem nextDay_valid (d : Ymd) (h : d.Valid) : (nextDay d).Valid := by
  obtain ⟨y, m, dd⟩ := d
  unfold Ymd.Valid nextDay daysInMonth at *
  dsimp only at *
  split_ifs at * <;> simp_all <;> omega

set_option maxHeartbeats 1600000 in
theorem rataDie_nextDay (d : Ymd) (h : d.Valid) :
    rataDie (nextDay d) = rataDie d + 1 := by
  obtain ⟨y, m, dd⟩ := d
  unfold Ymd.Valid at h
  dsimp only at h
  obtain ⟨h1, h2, h3, h4, h5⟩ := h
  unfold nextDay
  dsimp only
  split_ifs with ha hb
  · unfold rataDie
    dsimp only
    split_ifs <;> omega
  · have hdd : dd = daysInMonth y m := by omega
    subst hdd
    clear h4 h5 ha
    interval_cases m <;> simp only [rataDie, daysInMonth] <;> norm_num <;>
      split_ifs <;> omega
  · have hm : m = 12 := by omega
    subst hm
    simp [daysInMonth] at ha h5
    unfold rataDie
    dsimp only
    split_ifs <;> omega

theorem eachDayAux_length (n : Nat) (d : Ymd) : (eachDayAux n d).length = n := by
  induction n generalizing d with
  | zero => rfl
  | succ k ih => simp [eachDayAux, ih]

theorem eachDayAux_mem (n : Nat) (d : Ymd) (hv : d.Valid) (x : Ymd)
    (hx : x ∈ eachDayAux n d) :
    x.Valid ∧ rataDie d ≤ rataDie x ∧ rataDie x < rataDie d + n := by
  induction n generalizing d with
  | zero => simp [eachDayAux] at hx
  | succ k ih =>
    simp only [eachDayAux, List.mem_cons] at hx
    rcases hx with rfl | hx
    · exact ⟨hv, Nat.le_refl _, by omega⟩
    · have hnext := ih (nextDay d) (nextDay_valid d hv) hx
      rw [rataDie_nextDay d hv] at hnext
      exact ⟨hnext.1, by omega, by omega⟩

theorem eachDayOfInterval_length (s e : Ymd) :
    (eachDayOfInterval s e).length = rataDie e + 1 - rataDie s := by
  unfold eachDayOfInterval
  exact eachDayAux_length _ _

theorem mem_eachDayOfInterval (s e : Ymd) (hs : s.Valid) (x : Ymd)
    (hx : x ∈ eachDayOfInterval s e) :
    x.Valid ∧ rataDie s ≤ rataDie x ∧ rataDie x ≤ rataDie e := by
  unfold eachDayOfInterval at hx
  have h := eachDayAux_mem _ _ hs _ hx
  exact ⟨h.1, h.2.1, by omega⟩

/-- A row of the `doctor_availability` table (WeeklyAvailability in the spec). -/
structure WeeklyRow where
  doctor_id : Nat
  clinic_id : Nat
  day_of_week : Nat
  start_time : Nat
  end_time : Nat
deriving DecidableEq, Repr

/-- A row of the `doctor_availability_rules` table (RecurringRule). -/
structure RuleRow where
  doctor_id : Nat
  clinic_id : Nat
  day_of_week : Nat
  weeks_of_month : List Nat
  start_time : Nat
  end_time : Nat
deriving DecidableEq, Repr

/-- A row of the `special_schedules` table (SpecialSchedule); `start_time`
and `end_time` are nullable columns. -/
structure SpecialRow where
  doctor_id : Nat
  clinic_id : Nat
  schedule_date : Ymd
  start_time : Option Nat
  end_time : Option Nat
  is_available : Bool
deriving DecidableEq, Repr

/-- A row of the `doctors_identities` table. -/
structure DoctorIdentity where
  doctor_id : Nat
  full_name : String
  specialty : String
  status : String
deriving DecidableEq, Repr

/-- The Schedule Store's tables, as lists of rows in the order the database
returns them. -/
structure Store where
  doctor_availability : List WeeklyRow
  doctor_availability_rules : List RuleRow
  special_schedules : List SpecialRow
  doctors_identities : List DoctorIdentity
deriving DecidableEq, Repr

/-- One row of the `doctors` array answered by `GET /api/clinic-day-schedule`
(`SELECT di.doctor_id AS id, di.full_name AS name, di.specialty,
wd.start_time, wd.end_time`). -/
structure ResolvedDoctor where
  id : Nat
  name : String
  specialty : String
  start_time : Nat
  end_time : Nat
deriving DecidableEq, Repr

/-- The `NOT IN` subquery of `GET /api/clinic-day-schedule` in `src/index.js`:
`SELECT ss.doctor_id FROM special_schedules ss WHERE ss.schedule_date = $4
AND ss.is_available = false` — a doctor is blocked when some special-schedule
row for the queried date (any clinic) with `is_available = false` names them. -/
def specialBlocked (specials : List SpecialRow) (date : Ymd) (doc : Nat) : Bool :=
  specials.any fun ss =>
    ss.doctor_id = doc ∧ ss.schedule_date = date ∧ ss.is_available = false

/-- `GET /api/clinic-day-schedule` of `src/index.js` (lines 436–495): the
`working_doctors` CTE is the SQL `UNION` (set union of distinct
`(doctor_id, start_time, end_time)` tuples) of the weekly-availability rows
and the recurring-rule rows matching the clinic, weekday and week-of-month;
it is then joined with active `doctors_identities`, minus doctors blocked by
a `is_available = false` special schedule on the date. -/
def clinicDaySchedule (s : Store) (clinic : Nat) (date : Ymd) : List ResolvedDoctor :=
  let dayOfWeek := getDay date
  let weekOfMonth := getWeekOfMonth date
  let weekly := (s.doctor_availability.filter fun da =>
    da.clinic_id = clinic ∧ da.day_of_week = dayOfWeek).map fun da =>
      (da.doctor_id, da.start_time, da.end_time)
  let rules := (s.doctor_availability_rules.filter fun dr =>
    dr.clinic_id = clinic ∧ dr.day_of_week = dayOfWeek ∧
      weekOfMonth ∈ dr.weeks_of_month).map fun dr =>
      (dr.doctor_id, dr.start_time, dr.end_time)
  let working := (weekly ++ rules).dedup
  (s.doctors_identities.filter fun di =>
      di.status = "active" ∧
        specialBlocked s.special_schedules date di.doctor_id = false).flatMap
    fun di => (working.filter fun wd => wd.1 = di.doctor_id).map fun wd =>
      ResolvedDoctor.mk di.doctor_id di.full_name di.specialty wd.2.1 wd.2.2

/-- JS `Map#set` on an association list: overwrite the value in place when
the key is present (JS Maps keep the original insertion position), append
otherwise. -/
def mapSet {α β : Type} [DecidableEq α] (m : List (α × β)) (k : α) (v : β) :
    List (α × β) :=
  if m.any fun p => p.1 = k then
    m.map fun p => if p.1 = k then (k, v) else p
  else m ++ [(k, v)]

/-- `GET /api/clinic-day-schedule` of `src/unnamed/part_003` (lines 208–257):
weekly doctors and rule doctors are fetched separately (each a join with
active `doctors_identities`), merged through a JS `Map` keyed by doctor id
(`[...weeklyDoctors, ...ruleDoctors].forEach(doc =>
workingDoctorsMap.set(doc.id, doc))`, so a rule row overwrites a weekly row),
then filtered by the special-schedule rows of the date:
`!special || special.is_available`. -/
def clinicDayScheduleMap (s : Store) (clinic : Nat) (date : Ymd) :
    List ResolvedDoctor :=
  let dayOfWeek := getDay date
  let weekOfMonth := getWeekOfMonth date
  let weeklyDoctors := s.doctors_identities.flatMap fun di =>
    (s.doctor_availability.filter fun da =>
      di.doctor_id = da.doctor_id ∧ da.clinic_id = clinic ∧
        da.day_of_week = dayOfWeek ∧ di.status = "active").map fun da =>
      ResolvedDoctor.mk di.doctor_id di.full_name di.specialty da.start_time da.end_time
  let ruleDoctors := s.doctors_identities.flatMap fun di =>
    (s.doctor_availability_rules.filter fun dr =>
      di.doctor_id = dr.doctor_id ∧ dr.clinic_id = clinic ∧
        dr.day_of_week = dayOfWeek ∧ weekOfMonth ∈ dr.weeks_of_month ∧
          di.status = "active").map fun dr =>
      ResolvedDoctor.mk di.doctor_id di.full_name di.specialty dr.start_time dr.end_time
  let workingDoctors := ((weeklyDoctors ++ ruleDoctors).foldl
    (fun m doc => mapSet m doc.id doc) []).map fun p => p.2
  workingDoctors.filter fun doc =>
    match (s.special_schedules.filter fun ss =>
        ss.schedule_date = date).find? fun ss => ss.doctor_id = doc.id with
    | none => true
    | some sp => sp.is_available

/-- One entry of the `GET /api/doctor-work-schedule/:doctor_id` response.
The JS builds `{ date, startTime, endTime, clinicId, clinicName }`; the
clinic lookup `doctorRecords.find(c => c.clinic_id === ...)` is modelled
with `Option` (the handler would throw on a missing assignment row), and
`clinicName` is determined by `clinicId`, so it is not repeated here. -/
structure DayEntry where
  date : Ymd
  startTime : Nat
  endTime : Nat
  clinicId : Option Nat
deriving DecidableEq, Repr

/-- The body of the per-day loop of `GET /api/doctor-work-schedule/:doctor_id`
(`src/index.js` lines 497–550, identical in `src/unnamed/part_003`): the first
weekly-availability row for the weekday sets `isWorking` and `schedule`; a
matching rule row overwrites them; a special-schedule row for the exact date
with `is_available = false` clears `isWorking`.  `doctorRecords` is the
doctor's clinic-assignment list `(clinic_id, clinic_name)`, and `avail`,
`rules`, `specials` are that doctor's rows. -/
def doctorWorkDay (doctorRecords : List (Nat × String)) (avail : List WeeklyRow)
    (rules : List RuleRow) (specials : List SpecialRow) (day : Ymd) :
    Option DayEntry :=
  let dayOfWeek := getDay day
  let weekOfMonth := getWeekOfMonth day
  let weeklyAvail := avail.find? fun a => a.day_of_week = dayOfWeek
  let afterWeekly : Option DayEntry := weeklyAvail.map fun a =>
    DayEntry.mk day a.start_time a.end_time
      ((doctorRecords.find? fun c => c.1 = a.clinic_id).map fun c => c.1)
  let rule := rules.find? fun r =>
    r.day_of_week = dayOfWeek ∧ weekOfMonth ∈ r.weeks_of_month
  let afterRule : Option DayEntry :=
    match rule with
    | some r => some (DayEntry.mk day r.start_time r.end_time
        ((doctorRecords.find? fun c => c.1 = r.clinic_id).map fun c => c.1))
    | none => afterWeekly
  match specials.find? fun sp => sp.schedule_date = day with
  | some sp => if sp.is_available then afterRule else none
  | none => afterRule

/-- The whole loop of `GET /api/doctor-work-schedule/:doctor_id`: iterate
`eachDayOfInterval` from `start` to `e` (the handler instantiates
`start = today`, `e = addMonths(start, 2)`), collect the working days in a
JS `Map` keyed by the date string, and return its values.  The handler's
final sort by date only permutes the entries and is omitted; the properties
proved about this list are order-insensitive. -/
def doctorWorkSchedule (doctorRecords : List (Nat × String))
    (avail : List WeeklyRow) (rules : List RuleRow) (specials : List SpecialRow)
    (start e : Ymd) : List DayEntry :=
  ((eachDayOfInterval start e).foldl
    (fun acc day =>
      match doctorWorkDay doctorRecords avail rules specials day with
      | none => acc
      | some entry => mapSet acc day entry) []).map fun p => p.2

/-- `POST /api/special-schedules` (`src/index.js` lines 959–975, identical in
`src/unnamed/part_003`): `INSERT INTO special_schedules (doctor_id, clinic_id,
schedule_date, is_available) VALUES ($1,$2,$3,$4) ON CONFLICT
(doctor_id, schedule_date) DO UPDATE SET is_available =
EXCLUDED.is_available`.  The table has a unique index on
`(doctor_id, schedule_date)`, so at most one row conflicts; updating every
matching row is the same operation and keeps the function total.  A fresh
insert supplies no `start_time` / `end_time`, so those columns get NULL. -/
def specialUpsert (tbl : List SpecialRow) (doctor clinic : Nat) (date : Ymd)
    (avail : Bool) : List SpecialRow :=
  if tbl.any fun r => r.doctor_id = doctor ∧ r.schedule_date = date then
    tbl.map fun r =>
      if r.doctor_id = doctor ∧ r.schedule_date = date then
        { r with is_available := avail }
      else r
  else tbl ++ [SpecialRow.mk doctor clinic date none none avail]

/-- Modelled from the spec: §7 OverlappingOverrideAmbiguity says that among
duplicate SpecialSchedule rows for one (doctor, date) the resolver "should
prefer the most recently written row".  The store returns rows in write
order, so the most recently written matching row is the last one.  This
definition exists only to compare the spec's intended tie-break with what
the code does. -/
def mostRecentSpecial (l : List SpecialRow) (doc : Nat) (date : Ymd) :
    Option SpecialRow :=
  (l.filter fun r => r.doctor_id = doc ∧ r.schedule_date = date).getLast?

theorem any_perm {α : Type} (p : α → Bool) {l l' : List α} (h : l.Perm l') :
    l.any p = l'.any p := by
  rw [Bool.eq_iff_iff, List.any_eq_true, List.any_eq_true]
  constructor
  · rintro ⟨x, hx, hp⟩
    exact ⟨x, h.mem_iff.mp hx, hp⟩
  · rintro ⟨x, hx, hp⟩
    exact ⟨x, h.mem_iff.mpr hx, hp⟩

theorem any_erase {α : Type} [DecidableEq α] (l : List α) (x : α) (p : α → Bool)
    (hpx : p x = false) : (l.erase x).any p = l.any p := by
  induction l with
  | nil => rfl
  | cons a t ih =>
    rw [List.erase_cons]
    by_cases hax : a = x
    · subst hax
      simp [List.any_cons, hpx]
    · simp only [beq_iff_eq, if_neg hax, List.any_cons, ih]

theorem any_filter_sub {α : Type} (l : List α) (p q : α → Bool)
    (hpq : ∀ x, p x = true → q x = true) :
    (l.filter q).any p = l.any p := by
  induction l with
  | nil => rfl
  | cons a t ih =>
    by_cases hqa : q a = true
    · simp [List.filter_cons, hqa, List.any_cons, ih]
    · have hpa : p a = false := by
        cases hp : p a
        · rfl
        · exact absurd (hpq a hp) hqa
      simp [List.filter_cons, hqa, List.any_cons, hpa, ih]

theorem mapSet_map_fst {α β : Type} [DecidableEq α] (m : List (α × β)) (k : α)
    (v : β) :
    (mapSet m k v).map Prod.fst =
      if m.any fun p => p.1 = k then m.map Prod.fst
      else m.map Prod.fst ++ [k] := by
  unfold mapSet
  split_ifs with h
  · rw [List.map_map]
    apply List.map_congr_left
    intro p hp
    by_cases hpk : p.1 = k <;> simp [hpk]
  · simp

theorem mapSet_keys_nodup {α β : Type} [DecidableEq α] (m : List (α × β))
    (k : α) (v : β) (h : (m.map Prod.fst).Nodup) :
    ((mapSet m k v).map Prod.fst).Nodup := by
  rw [mapSet_map_fst]
  split_ifs with hmem
  · exact h
  · rw [List.nodup_append]
    refine ⟨h, List.nodup_singleton _, ?_⟩
    intro a ha hk
    simp only [List.mem_singleton] at hk
    simp only [List.mem_map] at ha
    obtain ⟨p, hp, hpk⟩ := ha
    have hany : (m.any fun p => p.1 = k) = true :=
      List.any_eq_true.mpr ⟨p, hp, by simp [hpk, hk]⟩
    exact hmem hany

theorem mapSet_forall {α β : Type} [DecidableEq α] (m : List (α × β)) (k : α)
    (v : β) (C : α × β → Prop) (hm : ∀ p ∈ m, C p) (hv : C (k, v)) :
    ∀ p ∈ mapSet m k v, C p := by
  unfold mapSet
  split_ifs with h
  · intro p hp
    simp only [List.mem_map] at hp
    obtain ⟨q, hq, hqp⟩ := hp
    by_cases hqk : q.1 = k
    · simp only [if_pos hqk] at hqp
      exact hqp ▸ hv
    · simp only [if_neg hqk] at hqp
      exact hqp ▸ hm q hq
  · intro p hp
    rcases List.mem_append.mp hp with hp | hp
    · exact hm p hp
    · simp only [List.mem_singleton] at hp
      exact hp ▸ hv

theorem mapSet_length_le {α β : Type} [DecidableEq α] (m : List (α × β))
    (k : α) (v : β) : (mapSet m k v).length ≤ m.length + 1 := by
  unfold mapSet
  split_ifs <;> simp

theorem mapSet_fst_mem {α β : Type} [DecidableEq α] (m : List (α × β)) (k : α)
    (v : β) : ∀ p ∈ mapSet m k v, p.1 ∈ m.map Prod.fst ∨ p.1 = k := by
  refine mapSet_forall m k v _ ?_ ?_
  · intro p hp
    exact Or.inl (List.mem_map.mpr ⟨p, hp, rfl⟩)
  · exact Or.inr rfl

theorem foldl_mapSet_inv {α β : Type} [DecidableEq α] (key : β → α)
    (l : List β) (m : List (α × β)) (h1 : (m.map Prod.fst).Nodup)
    (h2 : ∀ p ∈ m, key p.2 = p.1) :
    ((l.foldl (fun acc b => mapSet acc (key b) b) m).map Prod.fst).Nodup ∧
      ∀ p ∈ l.foldl (fun acc b => mapSet acc (key b) b) m, key p.2 = p.1 := by
  induction l generalizing m with
  | nil => exact ⟨h1, h2⟩
  | cons b t ih =>
    simp only [List.foldl_cons]
    exact ih (mapSet m (key b) b) (mapSet_keys_nodup _ _ _ h1)
      (mapSet_forall _ _ _ _ h2 rfl)

theorem schedFold_inv (f : Ymd → Option DayEntry)
    (hf : ∀ d e, f d = some e → e.date = d) (days : List Ymd)
    (m : List (Ymd × DayEntry)) (h1 : (m.map Prod.fst).Nodup) :
    ((days.foldl (fun acc day =>
        match f day with
        | none => acc
        | some entry => mapSet acc day entry) m).map Prod.fst).Nodup ∧
      ((∀ p ∈ m, p.2.date = p.1) →
        ∀ p ∈ days.foldl (fun acc day =>
          match f day with
          | none => acc
          | some entry => mapSet acc day entry) m, p.2.date = p.1) ∧
      (∀ p ∈ days.foldl (fun acc day =>
          match f day with
          | none => acc
          | some entry => mapSet acc day entry) m,
        p.1 ∈ m.map Prod.fst ∨ p.1 ∈ days) ∧
      (days.foldl (fun acc day =>
        match f day with
        | none => acc
        | some entry => mapSet acc day entry) m).length ≤
          m.length + days.length := by
  induction days generalizing m with
  | nil => exact ⟨h1, fun h => h, fun p hp => Or.inl (List.mem_map.mpr ⟨p, hp, rfl⟩),
      by simp⟩
  | cons day t ih =>
    simp only [List.foldl_cons]
    cases hfd : f day with
    | none =>
      obtain ⟨g1, g2, g3, g4⟩ := ih m h1
      refine ⟨g1, g2, ?_, by simpa using Nat.le_succ_of_le g4⟩
      intro p hp
      rcases g3 p hp with h | h
      · exact Or.inl h
      · exact Or.inr (List.mem_cons_of_mem _ h)
    | some entry =>
      obtain ⟨g1, g2, g3, g4⟩ := ih (mapSet m day entry)
        (mapSet_keys_nodup _ _ _ h1)
      refine ⟨g1, ?_, ?_, ?_⟩
      · intro hm
        exact g2 (mapSet_forall _ _ _ _ hm (hf day entry hfd))
      · intro p hp
        rcases g3 p hp with h | h
        · obtain ⟨q, hq, hqe⟩ := List.mem_map.mp h
          rcases mapSet_fst_mem m day entry q hq with h' | h'
          · exact Or.inl (hqe ▸ h')
          · refine Or.inr ?_
            rw [← hqe, h']
            exact List.mem_cons_self day t
        · exact Or.inr (List.mem_cons_of_mem _ h)
      · calc (t.foldl _ (mapSet m day entry)).length
            ≤ (mapSet m day entry).length + t.length := g4
          _ ≤ m.length + 1 + t.length := by
              have := mapSet_length_le m day entry
              omega
          _ = m.length + (day :: t).length := by simp [List.length_cons]; omega

theorem mem_clinicDaySchedule (s : Store) (c : Nat) (date : Ymd)
    (e : ResolvedDoctor) :
    e ∈ clinicDaySchedule s c date ↔
      ∃ di ∈ s.doctors_identities, di.status = "active" ∧
        specialBlocked s.special_schedules date di.doctor_id = false ∧
        e.id = di.doctor_id ∧ e.name = di.full_name ∧
        e.specialty = di.specialty ∧
        ((∃ da ∈ s.doctor_availability, da.clinic_id = c ∧
            da.day_of_week = getDay date ∧ da.doctor_id = di.doctor_id ∧
            e.start_time = da.start_time ∧ e.end_time = da.end_time) ∨
         (∃ dr ∈ s.doctor_availability_rules, dr.clinic_id = c ∧
            dr.day_of_week = getDay date ∧
            getWeekOfMonth date ∈ dr.weeks_of_month ∧
            dr.doctor_id = di.doctor_id ∧
            e.start_time = dr.start_time ∧ e.end_time = dr.end_time)) := by
  unfold clinicDaySchedule
  simp only [List.mem_flatMap, List.mem_filter, List.mem_map, List.mem_dedup,
    List.mem_append, decide_eq_true_eq, ResolvedDoctor.mk.injEq]
  constructor
  · rintro ⟨di, ⟨hdi, hact, hnb⟩, wd, ⟨hw, hwid⟩, he⟩
    subst he
    rcases hw with ⟨da, ⟨hda, hda1, hda2⟩, hwd⟩ | ⟨dr, ⟨hdr, hdr1, hdr2, hdr3⟩, hwd⟩
    · subst hwd
      exact ⟨di, hdi, hact, hnb, rfl, rfl, rfl,
        Or.inl ⟨da, hda, hda1, hda2, by simpa using hwid, rfl, rfl⟩⟩
    · subst hwd
      exact ⟨di, hdi, hact, hnb, rfl, rfl, rfl,
        Or.inr ⟨dr, hdr, hdr1, hdr2, hdr3, by simpa using hwid, rfl, rfl⟩⟩
  · rintro ⟨di, hdi, hact, hnb, hid, hname, hspec, hw⟩
    refine ⟨di, ⟨hdi, hact, hnb⟩, ?_⟩
    rcases hw with ⟨da, hda, hda1, hda2, hda3, hst, hen⟩ | ⟨dr, hdr, hdr1, hdr2, hdr3, hdr4, hst, hen⟩
    · refine ⟨(da.doctor_id, da.start_time, da.end_time),
        ⟨Or.inl ⟨da, ⟨hda, hda1, hda2⟩, rfl⟩, by simp [hda3, hid]⟩, ?_⟩
      obtain ⟨i, n, sp, st, en⟩ := e
      simp_all
    · refine ⟨(dr.doctor_id, dr.start_time, dr.end_time),
        ⟨Or.inr ⟨dr, ⟨hdr, hdr1, hdr2, hdr3⟩, rfl⟩, by simp [hdr4, hid]⟩, ?_⟩
      obtain ⟨i, n, sp, st, en⟩ := e
      simp_all

/-- C4 (counterexample): the claim says the weekOfMonth value used to match
RecurringRule rows equals the 1-based ordinal occurrence of the date's
weekday within its month for all dates.  2025-03-02 is the FIRST Sunday of
March 2025 (the month starts on a Saturday), so the ordinal occurrence is
`(2 - 1) / 7 + 1 = 1`, but the handlers' `getWeekOfMonth` yields 2. -/
theorem getWeekOfMonth_ordinal_cex :
    getWeekOfMonth ⟨2025, 3, 2⟩ = 2 ∧ (2 - 1) / 7 + 1 = 1 ∧
      getDay ⟨2025, 3, 2⟩ = 0 ∧ getDay ⟨2025, 3, 1⟩ = 6 := by
  decide

/-- C4 (amended): the weekOfMonth value used to match RecurringRule rows is
date-fns' Sunday-started calendar week-of-month, which equals the 1-based
ordinal occurrence of the date's weekday within its month plus one exactly
when the date's weekday is smaller than the weekday of the first of the
month; the two agree only in the complementary case. -/
theorem getWeekOfMonth_calendar_week (y m d : Nat) (hd : 1 ≤ d) :
    getWeekOfMonth ⟨y, m, d⟩ =
      (d - 1) / 7 + 1 +
        (if getDay ⟨y, m, d⟩ < getDay ⟨y, m, 1⟩ then 1 else 0) := by
  rw [getWeekOfMonth_formula y m d hd, getDay_linear y m d hd]
  have hs : getDay ⟨y, m, 1⟩ < 7 := getDay_lt _
  generalize getDay (Ymd.mk y m 1) = s at *
  split_ifs with h <;> omega

/-- C4 (witness): the amended claim evaluated at 2025-03-02. -/
theorem getWeekOfMonth_calendar_week_witness :
    getWeekOfMonth ⟨2025, 3, 2⟩ =
      (2 - 1) / 7 + 1 +
        (if getDay ⟨2025, 3, 2⟩ < getDay ⟨2025, 3, 1⟩ then 1 else 0) :=
  getWeekOfMonth_calendar_week 2025 3 2 (by decide)

/-- 2025-03-11, a Tuesday (`getDay = 2`) in the third Sunday-started calendar
week of March 2025 (`getWeekOfMonth = 3`). -/
def exDate : Ymd := ⟨2025, 3, 11⟩

/-- A store with one active doctor holding both a WeeklyAvailability row
(Tuesdays 540–720) and a RecurringRule row (Tuesdays of week 3, 840–1080)
in clinic 1. -/
def ruleStore : Store :=
  { doctor_availability := [⟨1, 1, 2, 540, 720⟩]
    doctor_availability_rules := [⟨1, 1, 2, [3], 840, 1080⟩]
    special_schedules := []
    doctors_identities := [⟨1, "A", "GP", "active"⟩] }

/-- C1 (counterexample): the claim says that when a doctor has both a
matching WeeklyAvailability row and a matching RecurringRule row, the result
contains the doctor with the rule's window and NOT the weekly window.  In
`src/index.js` the `working_doctors` CTE is a SQL `UNION`, so the weekly
window (540–720) is still emitted alongside the rule window (840–1080). -/
theorem clinicDaySchedule_keeps_weekly_window_cex :
    clinicDaySchedule ruleStore 1 exDate =
      [⟨1, "A", "GP", 540, 720⟩, ⟨1, "A", "GP", 840, 1080⟩] := by
  decide

/-- C1 (amended): for every doctor with both a WeeklyAvailability row and a
matching RecurringRule row for the queried date, the result does contain
that doctor with the RecurringRule's start_time/end_time — but the
WeeklyAvailability window is not removed by the UNION, so it may appear as
an additional row for the same doctor. -/
theorem clinicDaySchedule_rule_window_present (s : Store) (c : Nat)
    (date : Ymd) (di : DoctorIdentity) (da : WeeklyRow) (dr : RuleRow)
    (hdi : di ∈ s.doctors_identities) (hact : di.status = "active")
    (hnb : specialBlocked s.special_schedules date di.doctor_id = false)
    (hda : da ∈ s.doctor_availability) (hda1 : da.doctor_id = di.doctor_id)
    (hda2 : da.clinic_id = c) (hda3 : da.day_of_week = getDay date)
    (hdr : dr ∈ s.doctor_availability_rules) (hdr1 : dr.doctor_id = di.doctor_id)
    (hdr2 : dr.clinic_id = c) (hdr3 : dr.day_of_week = getDay date)
    (hdr4 : getWeekOfMonth date ∈ dr.weeks_of_month) :
    ResolvedDoctor.mk di.doctor_id di.full_name di.specialty
      dr.start_time dr.end_time ∈ clinicDaySchedule s c date := by
  rw [mem_clinicDaySchedule]
  exact ⟨di, hdi, hact, hnb, rfl, rfl, rfl,
    Or.inr ⟨dr, hdr, hdr2, hdr3, hdr4, hdr1, rfl, rfl⟩⟩

/-- C1 (witness): the amended claim at `ruleStore`: the rule window 840–1080
is in the answer for 2025-03-11. -/
theorem clinicDaySchedule_rule_window_present_witness :
    ResolvedDoctor.mk 1 "A" "GP" 840 1080 ∈ clinicDaySchedule ruleStore 1 exDate :=
  clinicDaySchedule_rule_window_present ruleStore 1 exDate
    ⟨1, "A", "GP", "active"⟩ ⟨1, 1, 2, 540, 720⟩ ⟨1, 1, 2, [3], 840, 1080⟩
    (by decide) (by decide) (by decide) (by decide) (by decide) (by decide)
    (by decide) (by decide) (by decide) (by decide) (by decide) (by decide)

/-- A store whose only data is an `is_available = true` SpecialSchedule for
doctor 2 on `exDate` with its own window 480–600; the doctor has no weekly
availability and no rules. -/
def adhocStore : Store :=
  { doctor_availability := []
    doctor_availability_rules := []
    special_schedules := [⟨2, 1, exDate, some 480, some 600, true⟩]
    doctors_identities := [⟨2, "B", "GP", "active"⟩] }

/-- C2 (counterexample): the claim says an `is_available = true`
SpecialSchedule ADDS the doctor with the special schedule's own window even
when no weekly row or rule matches.  The code only consults
`is_available = false` rows, so the ad-hoc doctor is absent. -/
theorem clinicDaySchedule_no_adhoc_addition_cex :
    clinicDaySchedule adhocStore 1 exDate = [] := by
  decide

/-- C2 (amended): `is_available = true` SpecialSchedule rows are ignored by
the clinic-day-schedule resolver: dropping every such row from the store
leaves the result unchanged — they neither add a doctor nor replace a
window; only `is_available = false` rows have any effect (removal). -/
theorem clinicDaySchedule_specials_congr (s : Store) (c : Nat) (date : Ymd)
    (l1 l2 : List SpecialRow)
    (h : ∀ k, specialBlocked l1 date k = specialBlocked l2 date k) :
    clinicDaySchedule { s with special_schedules := l1 } c date =
      clinicDaySchedule { s with special_schedules := l2 } c date := by
  unfold clinicDaySchedule
  dsimp only
  congr 1
  exact List.filter_congr fun di _ => by rw [h di.doctor_id]

theorem clinicDaySchedule_ignores_available_specials (s : Store) (c : Nat)
    (date : Ymd) :
    clinicDaySchedule
        { s with special_schedules :=
            s.special_schedules.filter fun r => r.is_available = false } c date =
      clinicDaySchedule s c date := by
  have hB : ∀ k, specialBlocked
      (s.special_schedules.filter fun r => r.is_available = false) date k =
      specialBlocked s.special_schedules date k := by
    intro k
    unfold specialBlocked
    apply any_filter_sub
    intro x hx
    simp only [decide_eq_true_eq] at hx ⊢
    exact hx.2.2
  exact clinicDaySchedule_specials_congr s c date _ _ hB

/-- C3 (counterexample): the claim says the resolver yields at most one
entry per doctor per clinic.  In the `src/index.js` UNION revision a doctor
with distinct weekly and rule windows is emitted once per window. -/
theorem clinicDaySchedule_duplicate_doctor_rows_cex :
    ((clinicDaySchedule ruleStore 1 exDate).map fun r => r.id) = [1, 1] := by
  decide

/-- C3 (amended): deduplication by doctor holds in the `src/unnamed/part_003`
map-merge revision — its JS `Map` keyed by doctor id yields pairwise
distinct doctor ids — while the `src/index.js` UNION revision deduplicates
only identical `(doctor, window)` tuples and can emit several rows for one
doctor. -/
theorem clinicDayScheduleMap_nodup_doctor_ids (s : Store) (c : Nat)
    (date : Ymd) :
    ((clinicDayScheduleMap s c date).map fun r => r.id).Nodup := by
  have key : ∀ (l : List ResolvedDoctor) (q : ResolvedDoctor → Bool),
      (((((l.foldl (fun m doc => mapSet m doc.id doc) []).map fun p => p.2).filter
        q).map fun r => r.id)).Nodup := by
    intro l q
    obtain ⟨h1, h2⟩ :=
      foldl_mapSet_inv (fun r : ResolvedDoctor => r.id) l [] (by simp) (by simp)
    have hmap : (((l.foldl (fun m doc => mapSet m doc.id doc) []).map
        fun p => p.2).map fun r => r.id) =
        (l.foldl (fun m doc => mapSet m doc.id doc) []).map Prod.fst := by
      rw [List.map_map]
      exact List.map_congr_left h2
    have hn : (((l.foldl (fun m doc => mapSet m doc.id doc) []).map
        fun p => p.2).map fun r => r.id).Nodup := hmap ▸ h1
    exact List.Nodup.sublist
      (List.Sublist.map _ (List.filter_sublist _)) hn
  exact key _ _

theorem specialBlocked_of_mem (l : List SpecialRow) (date : Ymd)
    (ss : SpecialRow) (hss : ss ∈ l) (hf : ss.is_available = false) :
    specialBlocked l date ss.doctor_id = true ∨ ss.schedule_date ≠ date := by
  by_cases hd : ss.schedule_date = date
  · refine Or.inl (List.any_eq_true.mpr ⟨ss, hss, ?_⟩)
    simp [hd, hf]
  · exact Or.inr hd

/-- A store with two active doctors working Tuesdays in clinic 1, plus an
`is_available = false` SpecialSchedule for doctor 1 on `exDate`. -/
def negOverrideStore : Store :=
  { doctor_availability := [⟨1, 1, 2, 540, 720⟩, ⟨2, 1, 2, 600, 780⟩]
    doctor_availability_rules := []
    special_schedules := [⟨1, 1, exDate, none, none, false⟩]
    doctors_identities := [⟨1, "A", "GP", "active"⟩, ⟨2, "B", "GP", "active"⟩] }

/-- C5: for a doctor with a matching weekly or rule row, an
`is_available = false` SpecialSchedule row for the exact queried date
excludes the doctor entirely from that date's result, and removing that row
from the store changes nothing for any other date. -/
theorem clinicDaySchedule_negative_override (s : Store) (c : Nat)
    (ss : SpecialRow) (hss : ss ∈ s.special_schedules)
    (hf : ss.is_available = false) (e : ResolvedDoctor) (d' : Ymd)
    (hd : d' ≠ ss.schedule_date) :
    (e ∈ clinicDaySchedule s c ss.schedule_date → e.id ≠ ss.doctor_id) ∧
      clinicDaySchedule s c d' =
        clinicDaySchedule
          { s with special_schedules := s.special_schedules.erase ss } c d' := by
  constructor
  · intro he hid
    rw [mem_clinicDaySchedule] at he
    obtain ⟨di, _, _, hnb, hdid, _⟩ := he
    rcases specialBlocked_of_mem s.special_schedules ss.schedule_date ss hss hf with
      hb | hb
    · have hsd : ss.doctor_id = di.doctor_id := by rw [← hid, hdid]
      rw [hsd, hnb] at hb
      exact Bool.false_ne_true hb
    · exact hb rfl
  · have hB : ∀ k, specialBlocked s.special_schedules d' k =
        specialBlocked (s.special_schedules.erase ss) d' k := by
      intro k
      unfold specialBlocked
      refine (any_erase _ _ _ ?_).symm
      simp only [decide_eq_false_iff_not]
      intro hcon
      exact hd (hcon.2.1.symm)
    calc clinicDaySchedule s c d'
        = clinicDaySchedule { s with special_schedules := s.special_schedules } c d' := rfl
      _ = clinicDaySchedule
          { s with special_schedules := s.special_schedules.erase ss } c d' :=
        clinicDaySchedule_specials_congr s c d' _ _ hB

/-- C5 (witness): in `negOverrideStore`, any membership of doctor 2's entry
in `exDate`'s result rules it out as the overridden doctor, and the override
row for 2025-03-11 has no effect on 2025-03-18. -/
theorem clinicDaySchedule_negative_override_witness :
    (ResolvedDoctor.mk 2 "B" "GP" 600 780 ∈
        clinicDaySchedule negOverrideStore 1 exDate →
      (ResolvedDoctor.mk 2 "B" "GP" 600 780).id ≠
        (SpecialRow.mk 1 1 exDate none none false).doctor_id) ∧
      clinicDaySchedule negOverrideStore 1 ⟨2025, 3, 18⟩ =
        clinicDaySchedule
          { negOverrideStore with special_schedules :=
              (negOverrideStore.special_schedules.erase
                (SpecialRow.mk 1 1 exDate none none false)) } 1 ⟨2025, 3, 18⟩ :=
  clinicDaySchedule_negative_override negOverrideStore 1
    (SpecialRow.mk 1 1 exDate none none false) (by decide) (by decide)
    (ResolvedDoctor.mk 2 "B" "GP" 600 780) ⟨2025, 3, 18⟩ (by decide)

/-- A store where doctor 1 works Tuesdays in clinic 2 only, and an
`is_available = false` SpecialSchedule row for `exDate` names clinic 1. -/
def crossClinicStore : Store :=
  { doctor_availability := [⟨1, 2, 2, 540, 720⟩]
    doctor_availability_rules := []
    special_schedules := [⟨1, 1, exDate, none, none, false⟩]
    doctors_identities := [⟨1, "A", "GP", "active"⟩] }

/-- C6 (counterexample): the claim says an `is_available = false`
SpecialSchedule removes the doctor only from the clinic named in the row.
The subquery filters by `schedule_date` alone, so the row naming clinic 1
also removes doctor 1 from clinic 2's schedule (without the row the doctor
is listed). -/
theorem clinicDaySchedule_cross_clinic_exclusion_cex :
    clinicDaySchedule { crossClinicStore with special_schedules := [] } 2 exDate =
        [⟨1, "A", "GP", 540, 720⟩] ∧
      clinicDaySchedule crossClinicStore 2 exDate = [] := by
  decide

/-- C6 (amended): SpecialSchedule overrides applied by the clinic-day
resolver are global to the doctor, not clinic-scoped: the `clinic_id` field
of special-schedule rows is never consulted, so rewriting it arbitrarily
leaves every clinic's result unchanged. -/
theorem clinicDaySchedule_special_clinic_irrelevant (s : Store) (c : Nat)
    (date : Ymd) (f : SpecialRow → Nat) :
    clinicDaySchedule
        { s with special_schedules :=
            s.special_schedules.map fun r => { r with clinic_id := f r } } c date =
      clinicDaySchedule s c date := by
  have hB : ∀ k, specialBlocked
      (s.special_schedules.map fun r => { r with clinic_id := f r }) date k =
      specialBlocked s.special_schedules date k := by
    intro k
    unfold specialBlocked
    rw [List.any_map]
    rfl
  exact clinicDaySchedule_specials_congr s c date _ _ hB

/-- A store violating the `(doctor_id, schedule_date)` uniqueness invariant:
two SpecialSchedule rows for doctor 1 on `exDate`, an older
`is_available = false` row followed by a newer `is_available = true` row. -/
def dupSpecialStore : Store :=
  { doctor_availability := [⟨1, 1, 2, 540, 720⟩]
    doctor_availability_rules := []
    special_schedules :=
      [⟨1, 1, exDate, none, none, false⟩, ⟨1, 1, exDate, none, none, true⟩]
    doctors_identities := [⟨1, "A", "GP", "active"⟩] }

/-- C8 (counterexample): the claim says that with duplicate SpecialSchedule
rows for one (doctor, date) the resolver uses the most recently written row.
Here the most recently written duplicate says `is_available = true`, yet the
resolver drops the doctor because some duplicate is false — the `NOT IN`
subquery (and `Array.find` in the map revision) does not prefer the newest
row. -/
theorem clinicDaySchedule_not_most_recent_cex :
    (mostRecentSpecial dupSpecialStore.special_schedules 1 exDate).map
        (fun r => r.is_available) = some true ∧
      clinicDaySchedule dupSpecialStore 1 exDate = [] := by
  decide

/-- C8 (amended): with duplicate SpecialSchedule rows for one
(doctor, date) the resolver still returns a result (it is a total function,
so it cannot crash), but the availability decision is not "most recently
written": a doctor appears in the output only when EVERY special-schedule
row for them on the queried date has `is_available = true` — one false
duplicate removes the doctor regardless of write order. -/
theorem clinicDaySchedule_member_no_false_special (s : Store) (c : Nat)
    (date : Ymd) (e : ResolvedDoctor) (ss : SpecialRow)
    (he : e ∈ clinicDaySchedule s c date) (hss : ss ∈ s.special_schedules)
    (h1 : ss.doctor_id = e.id) (h2 : ss.schedule_date = date) :
    ss.is_available = true := by
  rw [mem_clinicDaySchedule] at he
  obtain ⟨di, _, _, hnb, hdid, _⟩ := he
  cases hv : ss.is_available with
  | true => rfl
  | false =>
    exfalso
    have hb : specialBlocked s.special_schedules date di.doctor_id = true :=
      List.any_eq_true.mpr ⟨ss, hss, by simp [h1, h2, hv, hdid]⟩
    rw [hnb] at hb
    exact Bool.false_ne_true hb

/-- A store with duplicate `is_available = true` SpecialSchedule rows for
doctor 1 on `exDate` (another uniqueness violation). -/
def dupTrueSpecialStore : Store :=
  { doctor_availability := [⟨1, 1, 2, 540, 720⟩]
    doctor_availability_rules := []
    special_schedules :=
      [⟨1, 1, exDate, none, none, true⟩, ⟨1, 2, exDate, none, none, true⟩]
    doctors_identities := [⟨1, "A", "GP", "active"⟩] }

/-- C8 (witness): with duplicate special rows the resolver still answers,
and the listed doctor's duplicate row is an `is_available = true` one. -/
theorem clinicDaySchedule_member_no_false_special_witness :
    (SpecialRow.mk 1 1 exDate none none true).is_available = true :=
  clinicDaySchedule_member_no_false_special dupTrueSpecialStore 1 exDate
    (ResolvedDoctor.mk 1 "A" "GP" 540 720)
    (SpecialRow.mk 1 1 exDate none none true) (by decide) (by decide)
    (by decide) (by decide)

/-- C9: the clinic-day resolution is deterministic and order-independent:
for stores whose four tables hold the same rows (as multisets — the database
returns them in arbitrary order), the answers for any clinic and date are
equal as sets: the same entries are members of both. -/
theorem clinicDaySchedule_perm_invariant (s s' : Store) (c : Nat) (date : Ymd)
    (e : ResolvedDoctor)
    (h1 : s.doctor_availability.Perm s'.doctor_availability)
    (h2 : s.doctor_availability_rules.Perm s'.doctor_availability_rules)
    (h3 : s.special_schedules.Perm s'.special_schedules)
    (h4 : s.doctors_identities.Perm s'.doctors_identities) :
    e ∈ clinicDaySchedule s c date ↔ e ∈ clinicDaySchedule s' c date := by
  have hB : ∀ k, specialBlocked s.special_schedules date k =
      specialBlocked s'.special_schedules date k := by
    intro k
    unfold specialBlocked
    exact any_perm _ h3
  rw [mem_clinicDaySchedule, mem_clinicDaySchedule]
  constructor
  · rintro ⟨di, hdi, hact, hnb, hid, hname, hspec, hw⟩
    refine ⟨di, h4.mem_iff.mp hdi, hact, by rw [← hB]; exact hnb, hid, hname,
      hspec, ?_⟩
    rcases hw with ⟨da, hda, hrest⟩ | ⟨dr, hdr, hrest⟩
    · exact Or.inl ⟨da, h1.mem_iff.mp hda, hrest⟩
    · exact Or.inr ⟨dr, h2.mem_iff.mp hdr, hrest⟩
  · rintro ⟨di, hdi, hact, hnb, hid, hname, hspec, hw⟩
    refine ⟨di, h4.mem_iff.mpr hdi, hact, by rw [hB]; exact hnb, hid, hname,
      hspec, ?_⟩
    rcases hw with ⟨da, hda, hrest⟩ | ⟨dr, hdr, hrest⟩
    · exact Or.inl ⟨da, h1.mem_iff.mpr hda, hrest⟩
    · exact Or.inr ⟨dr, h2.mem_iff.mpr hdr, hrest⟩

/-- `negOverrideStore` with its two weekly rows and its two identity rows
listed in the opposite order. -/
def negOverrideStorePerm : Store :=
  { doctor_availability := [⟨2, 1, 2, 600, 780⟩, ⟨1, 1, 2, 540, 720⟩]
    doctor_availability_rules := []
    special_schedules := [⟨1, 1, exDate, none, none, false⟩]
    doctors_identities := [⟨2, "B", "GP", "active"⟩, ⟨1, "A", "GP", "active"⟩] }

/-- C9 (witness): the permuted store answers the same set of entries; here
membership of doctor 2's entry agrees across the two row orders. -/
theorem clinicDaySchedule_perm_invariant_witness :
    ResolvedDoctor.mk 2 "B" "GP" 600 780 ∈
        clinicDaySchedule negOverrideStore 1 exDate ↔
      ResolvedDoctor.mk 2 "B" "GP" 600 780 ∈
        clinicDaySchedule negOverrideStorePerm 1 exDate :=
  clinicDaySchedule_perm_invariant negOverrideStore negOverrideStorePerm 1 exDate
    (ResolvedDoctor.mk 2 "B" "GP" 600 780)
    (by decide) (by decide) (by decide) (by decide)

theorem doctorWorkDay_date (doctorRecords : List (Nat × String))
    (avail : List WeeklyRow) (rules : List RuleRow) (specials : List SpecialRow)
    (d : Ymd) (en : DayEntry)
    (h : doctorWorkDay doctorRecords avail rules specials d = some en) :
    en.date = d := by
  simp only [doctorWorkDay] at h
  split at h
  · split at h
    · split at h
      · rw [← Option.some.inj h]
      · rw [Option.map_eq_some'] at h
        obtain ⟨a, _, ha⟩ := h
        rw [← ha]
    · exact absurd h (by simp)
  · split at h
    · rw [← Option.some.inj h]
    · rw [Option.map_eq_some'] at h
      obtain ⟨a, _, ha⟩ := h
      rw [← ha]

/-- C7: the doctor-work-schedule loop iterates exactly the calendar dates in
[start, e]: every produced entry carries a date inside that interval, no two
entries share a date (the JS `Map` is keyed by the date), and the number of
entries never exceeds the number of days in the range. -/
theorem doctorWorkSchedule_range_bounded (doctorRecords : List (Nat × String))
    (avail : List WeeklyRow) (rules : List RuleRow) (specials : List SpecialRow)
    (start e : Ymd) (hs : start.Valid) (entry : DayEntry)
    (hmem : entry ∈ doctorWorkSchedule doctorRecords avail rules specials start e) :
    (rataDie start ≤ rataDie entry.date ∧ rataDie entry.date ≤ rataDie e) ∧
      ((doctorWorkSchedule doctorRecords avail rules specials start e).map
        (fun en => en.date)).Nodup ∧
      (doctorWorkSchedule doctorRecords avail rules specials start e).length ≤
        (eachDayOfInterval start e).length := by
  obtain ⟨g1, g2, g3, g4⟩ := schedFold_inv
    (fun day => doctorWorkDay doctorRecords avail rules specials day)
    (doctorWorkDay_date doctorRecords avail rules specials)
    (eachDayOfInterval start e) [] (by simp)
  unfold doctorWorkSchedule at hmem ⊢
  refine ⟨?_, ?_, ?_⟩
  · obtain ⟨p, hp, hpe⟩ := List.mem_map.mp hmem
    have hdate : p.2.date = p.1 := g2 (by simp) p hp
    have hkey := g3 p hp
    simp only [List.map_nil, List.not_mem_nil, false_or] at hkey
    have hb := mem_eachDayOfInterval start e hs p.1 hkey
    rw [← hpe, hdate]
    exact ⟨hb.2.1, hb.2.2⟩
  · have hmap : (((eachDayOfInterval start e).foldl (fun acc day =>
        match doctorWorkDay doctorRecords avail rules specials day with
        | none => acc
        | some entry => mapSet acc day entry) []).map fun p => p.2).map
          (fun en => en.date) =
        ((eachDayOfInterval start e).foldl (fun acc day =>
        match doctorWorkDay doctorRecords avail rules specials day with
        | none => acc
        | some entry => mapSet acc day entry) []).map Prod.fst := by
      rw [List.map_map]
      exact List.map_congr_left (g2 (by simp))
    rw [hmap]
    exact g1
  · rw [List.length_map]
    simpa using g4

/-- C10: the special-schedule upsert never persists a time window.  When no
row for (doctor, schedule_date) exists, exactly the four request fields are
written and `start_time` / `end_time` are NULL; when a conflicting row
exists, every stored row keeps its `doctor_id`, `clinic_id`,
`schedule_date`, `start_time` and `end_time`, and only the conflicting row's
`is_available` is replaced — whatever `clinic_id` (or window) the request
carried. -/
theorem specialUpsert_frame (tbl : List SpecialRow) (doctor clinic : Nat)
    (date : Ymd) (avail : Bool) :
    if tbl.any fun r => r.doctor_id = doctor ∧ r.schedule_date = date then
      List.Forall₂ (fun old new : SpecialRow =>
        new.doctor_id = old.doctor_id ∧ new.clinic_id = old.clinic_id ∧
        new.schedule_date = old.schedule_date ∧
        new.start_time = old.start_time ∧ new.end_time = old.end_time ∧
        new.is_available =
          (if old.doctor_id = doctor ∧ old.schedule_date = date then avail
           else old.is_available))
        tbl (specialUpsert tbl doctor clinic date avail)
    else
      specialUpsert tbl doctor clinic date avail =
        tbl ++ [SpecialRow.mk doctor clinic date none none avail] := by
  unfold specialUpsert
  split_ifs with h
  · rw [List.forall₂_map_right_iff, List.forall₂_same]
    intro x hx
    by_cases hmatch : x.doctor_id = doctor ∧ x.schedule_date = date
    · simp [hmatch]
    · simp [hmatch]
  · rfl

/-- C7 (witness): a four-day range 2025-03-10 … 2025-03-13 for a doctor
working Tuesdays produces one entry (2025-03-11) with in-range date,
distinct dates and at most four entries. -/
theorem doctorWorkSchedule_range_bounded_witness :
    (rataDie ⟨2025, 3, 10⟩ ≤
          rataDie (DayEntry.mk ⟨2025, 3, 11⟩ 540 720 (some 1)).date ∧
        rataDie (DayEntry.mk ⟨2025, 3, 11⟩ 540 720 (some 1)).date ≤
          rataDie ⟨2025, 3, 13⟩) ∧
      ((doctorWorkSchedule [(1, "Main")] [⟨1, 1, 2, 540, 720⟩] [] []
        ⟨2025, 3, 10⟩ ⟨2025, 3, 13⟩).map (fun en => en.date)).Nodup ∧
      (doctorWorkSchedule [(1, "Main")] [⟨1, 1, 2, 540, 720⟩] [] []
        ⟨2025, 3, 10⟩ ⟨2025, 3, 13⟩).length ≤
        (eachDayOfInterval ⟨2025, 3, 10⟩ ⟨2025, 3, 13⟩).length :=
  doctorWorkSchedule_range_bounded [(1, "Main")] [⟨1, 1, 2, 540, 720⟩] [] []
    ⟨2025, 3, 10⟩ ⟨2025, 3, 13⟩ (by decide)
    (DayEntry.mk ⟨2025, 3, 11⟩ 540 720 (some 1)) (by decide)
